import Mathlib

/-!
Verification of `build/rbx_copy_libbase.py`.

The script loads the `os`, `sys` and `shutil` modules and is otherwise:

    def copyfile(filepath) :
        dirname = os.path.dirname(os.path.realpath(filepath))
        shutil.copy(filepath, os.path.join(dirname, "libchromebase.a"))

    if __name__ == '__main__' :
        copyfile("obj/third_party/mini_chromium/mini_chromium/base/libbase.a")

We model a POSIX-like filesystem shallowly: a path is a list of name
components (absolute, from the root), and the filesystem is an association
list from paths to nodes, a node being either a regular file (byte content
plus permission mode) or a symbolic link (with an absolute target path).
Directories are implicit: a directory exists at `p` exactly when some node
lives strictly below `p`.

`os.path.realpath` is modelled by component-wise resolution that follows
symbolic links, with a fuel bound standing for the OS limit on the number
of link expansions.  `shutil.copy(src, dst)` is modelled after its
documented behaviour: if `dst` is a directory the file is copied into it
under `src`'s basename; otherwise `shutil.copyfile` raises `SameFileError`
when `src` and `dst` are the same file, else copies the bytes over `dst`
(creating or truncating), and `shutil.copymode` then copies the permission
bits of `src` onto `dst`.
-/

namespace Crashpad

/-- An absolute path, as its list of name components from the root. -/
abbrev Path := List String

/-- A component name is valid when it is not empty and not one of the two
special names `.` and `..`. -/
def validName (s : String) : Bool :=
  (s != "") && (s != ".") && (s != "..")

/-- Every component of the path is a valid name. -/
def validPath (p : Path) : Bool :=
  p.all validName

/-- Content and permission mode of a regular file. -/
structure FileData where
  content : List Nat
  mode : Nat
deriving DecidableEq

/-- A filesystem node: a regular file or a symbolic link. -/
inductive Node where
  | file (data : FileData)
  | symlink (target : Path)
deriving DecidableEq

/-- A filesystem: an association list from absolute paths to nodes. -/
abbrev FS := List (Path × Node)

/-- Look up the node stored at a path. -/
def lookupNode : FS → Path → Option Node
  | [], _ => none
  | (q, n) :: rest, p => if q = p then some n else lookupNode rest p

/-- Store a node at a path, replacing any previous node there. -/
def insertNode : FS → Path → Node → FS
  | [], p, n => [(p, n)]
  | (q, m) :: rest, p, n =>
    if q = p then (p, n) :: rest else (q, m) :: insertNode rest p n

/-- `properIn q p` holds when `q` is a proper initial segment of `p`,
that is, the location `p` lies strictly below the directory `q`. -/
def properIn : Path → Path → Bool
  | _, [] => false
  | [], _ :: _ => true
  | a :: q, b :: p => (a == b) && properIn q p

/-- A directory exists at `p` when some node lives strictly below `p`. -/
def isDirFS (fs : FS) (p : Path) : Bool :=
  fs.any (fun kn => properIn p kn.1)

/-- Well-formedness of a filesystem: every key is a nonempty valid path,
and no key lies strictly below another key (a path cannot be both a
file or link and a directory). -/
def wfFS (fs : FS) : Bool :=
  fs.all (fun kn => (!kn.1.isEmpty) && validPath kn.1) &&
  fs.all (fun a => fs.all (fun b => !properIn a.1 b.1))

/-- Split a string into path components on `/` characters
(the behaviour of splitting on the separator, as `os.path` does). -/
def splitPathAux : List Char → List Char → List String
  | [], cur => [String.mk cur.reverse]
  | c :: cs, cur =>
    if c = '/' then String.mk cur.reverse :: splitPathAux cs []
    else splitPathAux cs (c :: cur)

/-- Components of a path string. -/
def splitPath (s : String) : List String :=
  splitPathAux s.data []

/-- A path string is absolute when it starts with `/`. -/
def isAbsPath (s : String) : Bool :=
  match s.data with
  | [] => false
  | c :: _ => c = '/'

/-- Interpret a path string against the current working directory, as the
OS does for relative paths (`os.getcwd()`-joining). -/
def absPath (cwd : Path) (s : String) : Path :=
  if isAbsPath s then splitPath s else cwd ++ splitPath s

/-- Outcome of walking the components of a path until the first symbolic
link is met: either the fully resolved path, or the still-unresolved
path at the link (`stuck`) together with the worklist obtained by
substituting the link's target (`next`). -/
inductive WalkResult where
  | done (p : Path)
  | jump (stuck : Path) (next : List String)
deriving DecidableEq

/-- Walk the components of a path left to right, skipping empty and `.`
components, applying `..`, and stopping at the first symbolic link,
as `os.path.realpath` processes a path. -/
def walkStep (fs : FS) (acc : Path) (rest : List String) : WalkResult :=
  match rest with
  | [] => WalkResult.done acc
  | c :: rest' =>
    if c = "" ∨ c = "." then walkStep fs acc rest'
    else if c = ".." then walkStep fs acc.dropLast rest'
    else
      match lookupNode fs (acc ++ [c]) with
      | some (Node.symlink t) =>
        WalkResult.jump (acc ++ c :: rest') (t ++ rest')
      | _ => walkStep fs (acc ++ [c]) rest'

/-- Resolve a component list from the root, following at most `fuel`
symbolic links; when the link budget is exhausted the path is returned
with the remaining components unresolved, as `os.path.realpath` returns
a partially resolved path on a link loop. -/
def resolveFuel (fs : FS) (fuel : Nat) (p : List String) : Path :=
  match walkStep fs [] p with
  | WalkResult.done r => r
  | WalkResult.jump stuck next =>
    match fuel with
    | 0 => stuck
    | fuel' + 1 => resolveFuel fs fuel' next

/-- Resolution of an absolute component path (symlink-following stat path). -/
def resolveAbs (fs : FS) (fuel : Nat) (p : Path) : Path :=
  resolveFuel fs fuel p

/-- `os.path.realpath`: make the string absolute against the working
directory, then resolve symbolic links component-wise. -/
def realpathFS (fs : FS) (cwd : Path) (fuel : Nat) (s : String) : Path :=
  resolveAbs fs fuel (absPath cwd s)

/-- Errors surfaced by the filesystem operations the script can hit. -/
inductive FsError where
  | fileNotFound
  | sameFileError
  | tooManyLinks
  | isADirectory
deriving DecidableEq

/-- Whether an optional node is a symbolic link. -/
def isSymNode : Option Node → Bool
  | some (Node.symlink _) => true
  | _ => false

/-- `os.stat` succeeds and yields a regular file's data: resolve the path
and find a regular file there. -/
def statFile (fs : FS) (fuel : Nat) (p : Path) : Option FileData :=
  match lookupNode fs (resolveAbs fs fuel p) with
  | some (Node.file d) => some d
  | _ => none

/-- Whether `os.stat` succeeds at all on a path (a regular file or a
directory at the resolved location). -/
def statExistsFS (fs : FS) (fuel : Nat) (p : Path) : Bool :=
  match lookupNode fs (resolveAbs fs fuel p) with
  | some (Node.file _) => true
  | some (Node.symlink _) => false
  | none => isDirFS fs (resolveAbs fs fuel p)

/-- `os.path.samefile` as `shutil` uses it: both paths stat successfully
and resolve to the same location (no hard links are modelled, so same
inode means same resolved path). -/
def sameFileFS (fs : FS) (fuel : Nat) (p q : Path) : Bool :=
  statExistsFS fs fuel p && statExistsFS fs fuel q &&
    decide (resolveAbs fs fuel p = resolveAbs fs fuel q)

/-- Open a path for reading, following symbolic links. -/
def openReadAbs (fs : FS) (fuel : Nat) (p : Path) : Except FsError FileData :=
  let r := resolveAbs fs fuel p
  match lookupNode fs r with
  | some (Node.file d) => Except.ok d
  | some (Node.symlink _) => Except.error FsError.tooManyLinks
  | none =>
    if isDirFS fs r then Except.error FsError.isADirectory
    else Except.error FsError.fileNotFound

/-- Mode bits of a newly created file (0o666; the process umask is not
modelled, and `shutil.copy` overrides the mode right afterwards anyway). -/
def defaultMode : Nat := 438

namespace Shutil

/-- `shutil.copyfile(src, dst)`: raise `SameFileError` when `src` and
`dst` are the same file; otherwise open `src` for reading and `dst` for
writing (creating or truncating it, following symbolic links on both
sides) and copy the bytes.  The written file keeps `dst`'s previous mode,
or the default creation mode for a new file. -/
def copyfile (fs : FS) (fuel : Nat) (src dst : Path) : Except FsError FS :=
  if sameFileFS fs fuel src dst then Except.error FsError.sameFileError
  else
    match openReadAbs fs fuel src with
    | Except.error e => Except.error e
    | Except.ok d =>
      let rdst := resolveAbs fs fuel dst
      if isDirFS fs rdst then Except.error FsError.isADirectory
      else
        match lookupNode fs rdst with
        | some (Node.symlink _) => Except.error FsError.tooManyLinks
        | some (Node.file old) =>
          Except.ok (insertNode fs rdst (Node.file ⟨d.content, old.mode⟩))
        | none =>
          Except.ok (insertNode fs rdst (Node.file ⟨d.content, defaultMode⟩))

/-- `shutil.copymode(src, dst)`: stat `src` and apply its permission mode
to the file at `dst` (following symbolic links). -/
def copymode (fs : FS) (fuel : Nat) (src dst : Path) : Except FsError FS :=
  match statFile fs fuel src with
  | none => Except.error FsError.fileNotFound
  | some d =>
    let rdst := resolveAbs fs fuel dst
    match lookupNode fs rdst with
    | some (Node.file old) =>
      Except.ok (insertNode fs rdst (Node.file ⟨old.content, d.mode⟩))
    | _ => Except.error FsError.fileNotFound

/-- `shutil.copy(src, dst)`: when `dst` is a directory, copy into it under
`src`'s basename; then copy the bytes with `copyfile` and the permission
bits with `copymode`. -/
def copy (fs : FS) (fuel : Nat) (src dst : Path) : Except FsError FS :=
  let dst := if isDirFS fs (resolveAbs fs fuel dst) then dst ++ [src.getLastD ""] else dst
  match copyfile fs fuel src dst with
  | Except.error e => Except.error e
  | Except.ok fs' => copymode fs' fuel src dst

end Shutil

/-- The hard-coded source path of the script. -/
def srcRel : String := "obj/third_party/mini_chromium/mini_chromium/base/libbase.a"

/-- The fixed destination filename of the script. -/
def destName : String := "libchromebase.a"

/-- The script's `copyfile(filepath)`:
`dirname = os.path.dirname(os.path.realpath(filepath))` followed by
`shutil.copy(filepath, os.path.join(dirname, "libchromebase.a"))`. -/
def copyfile (fs : FS) (cwd : Path) (fuel : Nat) (filepath : String) : Except FsError FS :=
  let dirname := (realpathFS fs cwd fuel filepath).dropLast
  Shutil.copy fs fuel (absPath cwd filepath) (dirname ++ [destName])

/-- How the module is loaded: executed directly, or imported as a library. -/
inductive InvocationMode where
  | direct
  | imported
deriving DecidableEq

/-- The top level of the script: the `if __name__ == '__main__'` guard
runs `copyfile` on the hard-coded path only under direct execution;
importing the module defines `copyfile` and touches nothing. -/
def runScript (mode : InvocationMode) (fs : FS) (cwd : Path) (fuel : Nat) : Except FsError FS :=
  match mode with
  | InvocationMode.direct => copyfile fs cwd fuel srcRel
  | InvocationMode.imported => Except.ok fs

/-! Basic facts about lookup, insertion and the proper-initial-segment
relation. -/

theorem lookup_insert_self (fs : FS) (p : Path) (n : Node) :
    lookupNode (insertNode fs p n) p = some n := by
  induction fs with
  | nil => simp [insertNode, lookupNode]
  | cons kn rest ih =>
    obtain ⟨q, m⟩ := kn
    by_cases h : q = p
    · simp [insertNode, h, lookupNode]
    · simp [insertNode, h, lookupNode, ih]

theorem lookup_insert_ne (fs : FS) (p q : Path) (n : Node) (h : q ≠ p) :
    lookupNode (insertNode fs p n) q = lookupNode fs q := by
  induction fs with
  | nil => simp [insertNode, lookupNode, Ne.symm h]
  | cons kn rest ih =>
    obtain ⟨k, m⟩ := kn
    by_cases hk : k = p
    · simp [insertNode, hk, lookupNode, Ne.symm h]
    · by_cases hkq : k = q <;> simp [insertNode, hk, lookupNode, hkq, h, ih]

theorem insert_insert (fs : FS) (p : Path) (a b : Node) :
    insertNode (insertNode fs p a) p b = insertNode fs p b := by
  induction fs with
  | nil => simp [insertNode]
  | cons kn rest ih =>
    obtain ⟨q, m⟩ := kn
    by_cases h : q = p
    · simp [insertNode, h]
    · simp [insertNode, h, ih]

theorem insert_of_lookup_self {fs : FS} {p : Path} {n : Node}
    (h : lookupNode fs p = some n) : insertNode fs p n = fs := by
  induction fs with
  | nil => simp [lookupNode] at h
  | cons kn rest ih =>
    obtain ⟨q, m⟩ := kn
    by_cases hq : q = p
    · rw [lookupNode, if_pos hq] at h
      obtain rfl : m = n := by injection h
      simp [insertNode, hq]
    · rw [lookupNode, if_neg hq] at h
      simp [insertNode, hq, ih h]

theorem lookup_mem {fs : FS} {p : Path} {n : Node}
    (h : lookupNode fs p = some n) : (p, n) ∈ fs := by
  induction fs with
  | nil => simp [lookupNode] at h
  | cons kn rest ih =>
    obtain ⟨q, m⟩ := kn
    by_cases hq : q = p
    · rw [lookupNode, if_pos hq] at h
      obtain rfl : m = n := by injection h
      simp [hq]
    · rw [lookupNode, if_neg hq] at h
      simp [ih h]

theorem lookup_some_of_mem {fs : FS} {p : Path} {n : Node}
    (h : (p, n) ∈ fs) : ∃ m, lookupNode fs p = some m := by
  induction fs with
  | nil => simp at h
  | cons kn rest ih =>
    obtain ⟨q, m⟩ := kn
    by_cases hq : q = p
    · exact ⟨m, by rw [lookupNode, if_pos hq]⟩
    · rcases List.mem_cons.mp h with heq | hmem
      · exact absurd (congrArg Prod.fst heq).symm hq
      · obtain ⟨m', hm'⟩ := ih hmem
        exact ⟨m', by rw [lookupNode, if_neg hq]; exact hm'⟩

theorem mem_insertNode {fs : FS} {p : Path} {n : Node} {kn : Path × Node}
    (h : kn ∈ insertNode fs p n) : kn = (p, n) ∨ kn ∈ fs := by
  induction fs with
  | nil => simp [insertNode] at h; simp [h]
  | cons hd rest ih =>
    obtain ⟨q, m⟩ := hd
    by_cases hq : q = p
    · rw [insertNode, if_pos hq] at h
      rcases List.mem_cons.mp h with heq | hmem
      · exact Or.inl heq
      · exact Or.inr (List.mem_cons.mpr (Or.inr hmem))
    · rw [insertNode, if_neg hq] at h
      rcases List.mem_cons.mp h with heq | hmem
      · exact Or.inr (List.mem_cons.mpr (Or.inl heq))
      · rcases ih hmem with h' | h'
        · exact Or.inl h'
        · exact Or.inr (List.mem_cons.mpr (Or.inr h'))

theorem properIn_irrefl (p : Path) : properIn p p = false := by
  induction p with
  | nil => rfl
  | cons a p ih => simp [properIn, ih]

theorem properIn_take {p : Path} {n : Nat} (h : n < p.length) :
    properIn (p.take n) p = true := by
  induction p generalizing n with
  | nil => simp at h
  | cons a p ih =>
    cases n with
    | zero => simp [properIn]
    | succ m =>
      rw [List.take_succ_cons]
      simp only [properIn, beq_self_eq_true, Bool.true_and]
      exact ih (by simpa using h)

theorem properIn_spec {q p : Path} (h : properIn q p = true) :
    q.length < p.length ∧ q = p.take q.length := by
  induction q generalizing p with
  | nil =>
    cases p with
    | nil => simp [properIn] at h
    | cons b p => simp
  | cons a q ih =>
    cases p with
    | nil => simp [properIn] at h
    | cons b p =>
      rw [properIn, Bool.and_eq_true] at h
      obtain ⟨hab, h2⟩ := h
      obtain rfl : a = b := eq_of_beq hab
      obtain ⟨hlt, htake⟩ := ih h2
      refine ⟨by simpa using hlt, ?_⟩
      simp only [List.length_cons, List.take_succ_cons]
      rw [← htake]

/-! Extraction of facts from well-formedness. -/

theorem wf_entry {fs : FS} {p : Path} {n : Node} (hwf : wfFS fs = true)
    (hm : (p, n) ∈ fs) : p ≠ [] ∧ validPath p = true := by
  rw [wfFS, Bool.and_eq_true, List.all_eq_true, List.all_eq_true] at hwf
  have h := hwf.1 (p, n) hm
  rw [Bool.and_eq_true] at h
  refine ⟨?_, h.2⟩
  have := h.1
  simpa [List.isEmpty_iff] using this

theorem wf_pair {fs : FS} {kn1 kn2 : Path × Node} (hwf : wfFS fs = true)
    (h1 : kn1 ∈ fs) (h2 : kn2 ∈ fs) : properIn kn1.1 kn2.1 = false := by
  rw [wfFS, Bool.and_eq_true, List.all_eq_true, List.all_eq_true] at hwf
  have h := hwf.2 kn1 h1
  rw [List.all_eq_true] at h
  have h' := h kn2 h2
  simpa using h'

theorem wf_take_none {fs : FS} {p : Path} {nd : Node} (hwf : wfFS fs = true)
    (hp : lookupNode fs p = some nd) {n : Nat} (hn : n < p.length) :
    lookupNode fs (p.take n) = none := by
  cases hl : lookupNode fs (p.take n) with
  | none => rfl
  | some m =>
    exfalso
    have hpair := wf_pair hwf (lookup_mem hl) (lookup_mem hp)
    rw [properIn_take hn] at hpair
    exact Bool.noConfusion hpair

theorem wf_isDir_false {fs : FS} {p : Path} {nd : Node} (hwf : wfFS fs = true)
    (hp : lookupNode fs p = some nd) : isDirFS fs p = false := by
  cases hd : isDirFS fs p with
  | false => rfl
  | true =>
    exfalso
    rw [isDirFS, List.any_eq_true] at hd
    obtain ⟨kn, hkn, hpi⟩ := hd
    have hpair := wf_pair hwf (lookup_mem hp) hkn
    rw [hpair] at hpi
    exact Bool.noConfusion hpi

/-! Resolution of paths free of intermediate symbolic links. -/

theorem validName_spec {c : String} (h : validName c = true) :
    c ≠ "" ∧ c ≠ "." ∧ c ≠ ".." := by
  rw [validName, Bool.and_eq_true, Bool.and_eq_true] at h
  refine ⟨?_, ?_, ?_⟩
  · simpa using h.1.1
  · simpa using h.1.2
  · simpa using h.2

theorem walk_clean (fs : FS) (rest : List String) :
    ∀ acc : Path, validPath rest = true →
    (∀ n : Nat, 0 < n → n < rest.length → lookupNode fs (acc ++ rest.take n) = none) →
    isSymNode (lookupNode fs (acc ++ rest)) = false →
    walkStep fs acc rest = WalkResult.done (acc ++ rest) := by
  induction rest with
  | nil =>
    intro acc _ _ _
    simp [walkStep]
  | cons c rest' ih =>
    intro acc hv hpre hlast
    rw [validPath, List.all_cons, Bool.and_eq_true] at hv
    obtain ⟨hvc, hvr⟩ := hv
    obtain ⟨hne, hnd, hndd⟩ := validName_spec hvc
    have hcond : ¬(c = "" ∨ c = ".") := by rintro (h | h) <;> contradiction
    have hnotsym : isSymNode (lookupNode fs (acc ++ [c])) = false := by
      cases rest' with
      | nil => simpa using hlast
      | cons e r =>
        have h1 := hpre 1 (by omega) (by simp)
        rw [List.take_succ_cons, List.take_zero] at h1
        rw [h1]
        rfl
    have hpre' : ∀ n : Nat, 0 < n → n < rest'.length →
        lookupNode fs ((acc ++ [c]) ++ rest'.take n) = none := by
      intro n h0 hn
      have := hpre (n + 1) (by omega) (by simp; omega)
      rw [List.take_succ_cons] at this
      simpa [List.append_assoc] using this
    have hlast' : isSymNode (lookupNode fs ((acc ++ [c]) ++ rest')) = false := by
      simpa [List.append_assoc] using hlast
    have hstep : walkStep fs acc (c :: rest') = walkStep fs (acc ++ [c]) rest' := by
      rw [walkStep]
      rw [if_neg hcond, if_neg hndd]
      cases hl : lookupNode fs (acc ++ [c]) with
      | none => rfl
      | some nd =>
        cases nd with
        | file d => rfl
        | symlink t =>
          rw [hl] at hnotsym
          exact Bool.noConfusion hnotsym
    rw [hstep, ih (acc ++ [c]) hvr hpre' hlast']
    simp [List.append_assoc]

theorem walk_sym (fs : FS) (rest : List String) :
    ∀ acc : Path, ∀ t : Path, validPath rest = true → rest ≠ [] →
    (∀ n : Nat, 0 < n → n < rest.length → lookupNode fs (acc ++ rest.take n) = none) →
    lookupNode fs (acc ++ rest) = some (Node.symlink t) →
    walkStep fs acc rest = WalkResult.jump (acc ++ rest) t := by
  induction rest with
  | nil =>
    intro acc t _ hne _ _
    exact absurd rfl hne
  | cons c rest' ih =>
    intro acc t hv _ hpre hlast
    rw [validPath, List.all_cons, Bool.and_eq_true] at hv
    obtain ⟨hvc, hvr⟩ := hv
    obtain ⟨hne, hnd, hndd⟩ := validName_spec hvc
    have hcond : ¬(c = "" ∨ c = ".") := by rintro (h | h) <;> contradiction
    cases hrest : rest' with
    | nil =>
      subst hrest
      rw [walkStep]
      rw [if_neg hcond, if_neg hndd]
      have hl : lookupNode fs (acc ++ [c]) = some (Node.symlink t) := by
        simpa using hlast
      rw [hl]
      simp
    | cons e r =>
      subst hrest
      have h1 := hpre 1 (by omega) (by simp)
      rw [List.take_succ_cons, List.take_zero] at h1
      have hpre' : ∀ n : Nat, 0 < n → n < (e :: r).length →
          lookupNode fs ((acc ++ [c]) ++ (e :: r).take n) = none := by
        intro n h0 hn
        have := hpre (n + 1) (by omega)
          (by simp only [List.length_cons] at hn ⊢; omega)
        rw [List.take_succ_cons] at this
        simpa [List.append_assoc] using this
      have hlast' : lookupNode fs ((acc ++ [c]) ++ (e :: r)) = some (Node.symlink t) := by
        simpa [List.append_assoc] using hlast
      have hstep : walkStep fs acc (c :: e :: r) = walkStep fs (acc ++ [c]) (e :: r) := by
        rw [walkStep]
        rw [if_neg hcond, if_neg hndd, h1]
      rw [hstep, ih (acc ++ [c]) t hvr (by simp) hpre' hlast']
      simp [List.append_assoc]

theorem resolve_clean (fs : FS) (fuel : Nat) (q : Path)
    (hv : validPath q = true)
    (hpre : ∀ n : Nat, 0 < n → n < q.length → lookupNode fs (q.take n) = none)
    (hlast : isSymNode (lookupNode fs q) = false) :
    resolveFuel fs fuel q = q := by
  rw [resolveFuel]
  rw [walk_clean fs q [] hv (by simpa using hpre) (by simpa using hlast)]
  rfl

theorem resolve_sym (fs : FS) (fuel : Nat) (q t : Path)
    (hv : validPath q = true) (hq : q ≠ [])
    (hpre : ∀ n : Nat, 0 < n → n < q.length → lookupNode fs (q.take n) = none)
    (hlast : lookupNode fs q = some (Node.symlink t)) :
    resolveFuel fs (fuel + 1) q = resolveFuel fs fuel t := by
  rw [resolveFuel]
  rw [walk_sym fs q [] t hv hq (by simpa using hpre) (by simpa using hlast)]

/-! Small list helpers. -/

theorem getLastD_append_single (l : List String) (a d : String) :
    (l ++ [a]).getLastD d = a :=
  List.getLastD_concat d a l

theorem dropLast_getLastD : ∀ (l : List String), l ≠ [] → ∀ d : String,
    l.dropLast ++ [l.getLastD d] = l
  | [], h, _ => absurd rfl h
  | [_], _, _ => rfl
  | x :: y :: l, _, d => by
    rw [List.getLastD_cons, List.dropLast_cons₂, List.cons_append,
      dropLast_getLastD (y :: l) (by simp) x]

theorem ne_of_length_ne {α : Type} {xs ys : List α} (h : xs.length ≠ ys.length) :
    xs ≠ ys :=
  fun he => h (congrArg List.length he)

theorem take_dropLast_concat {s : Path} {x : String} {n : Nat}
    (hn : n < (s.dropLast ++ [x]).length) :
    (s.dropLast ++ [x]).take n = s.take n := by
  have h1 : n ≤ s.dropLast.length := by
    simp only [List.length_append, List.length_cons, List.length_nil] at hn
    omega
  rw [List.take_append_of_le_length h1, List.dropLast_eq_take, List.take_take]
  congr 1
  simp only [List.length_dropLast, List.dropLast_eq_take, List.length_take] at h1
  omega

theorem validPath_dropLast {p : Path} (h : validPath p = true) :
    validPath p.dropLast = true := by
  rw [validPath, List.all_eq_true] at h ⊢
  intro x hx
  exact h x ((List.dropLast_sublist p).subset hx)

/-! The behaviour of `shutil.copy` in the two situations the script can
produce: a successful copy onto a plain destination location, and a
missing source file. -/

theorem copymode_after (fs : FS) (fuel : Nat) (src dst rs : Path) (d : FileData) (m : Nat)
    (h2 : lookupNode fs rs = some (Node.file d))
    (h6 : rs ≠ dst)
    (h7 : resolveAbs (insertNode fs dst (Node.file ⟨d.content, m⟩)) fuel src = rs)
    (h8 : resolveAbs (insertNode fs dst (Node.file ⟨d.content, m⟩)) fuel dst = dst) :
    Shutil.copymode (insertNode fs dst (Node.file ⟨d.content, m⟩)) fuel src dst =
      Except.ok (insertNode fs dst (Node.file ⟨d.content, d.mode⟩)) := by
  have hs : statFile (insertNode fs dst (Node.file ⟨d.content, m⟩)) fuel src = some d := by
    rw [statFile, h7, lookup_insert_ne _ _ _ _ h6, h2]
  simp only [Shutil.copymode, hs, h8, lookup_insert_self, insert_insert]

theorem shutil_copy_spec (fs : FS) (fuel : Nat) (src dst rs : Path) (d : FileData)
    (h1 : resolveAbs fs fuel src = rs)
    (h2 : lookupNode fs rs = some (Node.file d))
    (h3 : resolveAbs fs fuel dst = dst)
    (h4 : isDirFS fs dst = false)
    (h5 : isSymNode (lookupNode fs dst) = false)
    (h6 : rs ≠ dst)
    (h7 : ∀ m : Nat, resolveAbs (insertNode fs dst (Node.file ⟨d.content, m⟩)) fuel src = rs)
    (h8 : ∀ m : Nat, resolveAbs (insertNode fs dst (Node.file ⟨d.content, m⟩)) fuel dst = dst) :
    Shutil.copy fs fuel src dst =
      Except.ok (insertNode fs dst (Node.file ⟨d.content, d.mode⟩)) := by
  have hsame : sameFileFS fs fuel src dst = false := by
    rw [sameFileFS, h1, h3]
    simp [h6]
  have hopen : openReadAbs fs fuel src = Except.ok d := by
    simp only [openReadAbs, h1, h2]
  cases hl : lookupNode fs dst with
  | some nd =>
    cases nd with
    | symlink t =>
      rw [hl] at h5
      exact Bool.noConfusion h5
    | file old =>
      have hcf : Shutil.copyfile fs fuel src dst =
          Except.ok (insertNode fs dst (Node.file ⟨d.content, old.mode⟩)) := by
        simp [Shutil.copyfile, hsame, hopen, h3, h4, hl]
      have hca := copymode_after fs fuel src dst rs d old.mode h2 h6 (h7 old.mode) (h8 old.mode)
      simp [Shutil.copy, h3, h4, hcf, hca]
  | none =>
    have hcf : Shutil.copyfile fs fuel src dst =
        Except.ok (insertNode fs dst (Node.file ⟨d.content, defaultMode⟩)) := by
      simp [Shutil.copyfile, hsame, hopen, h3, h4, hl]
    have hca := copymode_after fs fuel src dst rs d defaultMode h2 h6 (h7 defaultMode) (h8 defaultMode)
    simp [Shutil.copy, h3, h4, hcf, hca]

theorem shutil_copy_notFound (fs : FS) (fuel : Nat) (src dst : Path)
    (hn : lookupNode fs (resolveAbs fs fuel src) = none)
    (hd : isDirFS fs (resolveAbs fs fuel src) = false) :
    Shutil.copy fs fuel src dst = Except.error FsError.fileNotFound := by
  have hse : statExistsFS fs fuel src = false := by
    simp only [statExistsFS, hn, hd]
  have hopen : openReadAbs fs fuel src = Except.error FsError.fileNotFound := by
    simp [openReadAbs, hn, hd]
  have hcf : ∀ dst' : Path, Shutil.copyfile fs fuel src dst' = Except.error FsError.fileNotFound := by
    intro dst'
    have hsame : sameFileFS fs fuel src dst' = false := by
      simp [sameFileFS, hse]
    simp [Shutil.copyfile, hsame, hopen]
  cases hdir : isDirFS fs (resolveAbs fs fuel dst) <;> simp [Shutil.copy, hdir, hcf]

/-! Concrete facts about the hard-coded source path. -/

theorem splitPath_srcRel : splitPath srcRel =
    ["obj", "third_party", "mini_chromium", "mini_chromium", "base", "libbase.a"] := rfl

theorem isAbsPath_srcRel : isAbsPath srcRel = false := rfl

theorem absPath_srcRel (cwd : Path) : absPath cwd srcRel =
    (cwd ++ ["obj", "third_party", "mini_chromium", "mini_chromium", "base"]) ++
      ["libbase.a"] := by
  rw [absPath, if_neg (by rw [isAbsPath_srcRel]; exact Bool.noConfusion), splitPath_srcRel,
    List.append_assoc]
  rfl

theorem getLastD_absPath_srcRel (cwd : Path) :
    (absPath cwd srcRel).getLastD "" = "libbase.a" := by
  rw [absPath_srcRel, getLastD_append_single]

/-- The whole effect of a direct run of the script in the plain situation:
the file at the (literal, symlink-free) source path is written, with its
mode, to `libchromebase.a` in the same directory. -/
theorem script_copy_eq (fs : FS) (cwd : Path) (fuel : Nat) (d : FileData)
    (hwf : wfFS fs = true)
    (hsrc : lookupNode fs (absPath cwd srcRel) = some (Node.file d))
    (hdst : isSymNode (lookupNode fs
      ((absPath cwd srcRel).dropLast ++ [destName])) = false)
    (hdir : isDirFS fs ((absPath cwd srcRel).dropLast ++ [destName]) = false) :
    runScript InvocationMode.direct fs cwd fuel =
      Except.ok (insertNode fs ((absPath cwd srcRel).dropLast ++ [destName])
        (Node.file ⟨d.content, d.mode⟩)) := by
  obtain ⟨hsne, hv⟩ := wf_entry hwf (lookup_mem hsrc)
  have hslen : 0 < (absPath cwd srcRel).length := List.length_pos.mpr hsne
  have hdp_len : ((absPath cwd srcRel).dropLast ++ [destName]).length =
      (absPath cwd srcRel).length := by
    simp only [List.length_append, List.length_dropLast, List.length_cons, List.length_nil]
    omega
  have hne_sdp : absPath cwd srcRel ≠ (absPath cwd srcRel).dropLast ++ [destName] := by
    intro h
    have h1 := getLastD_absPath_srcRel cwd
    rw [h, getLastD_append_single] at h1
    exact absurd h1 (by rw [destName]; intro hh; simp at hh)
  have hdp_pre : ∀ n : Nat, 0 < n →
      n < ((absPath cwd srcRel).dropLast ++ [destName]).length →
      lookupNode fs (((absPath cwd srcRel).dropLast ++ [destName]).take n) = none := by
    intro n _ hn
    rw [take_dropLast_concat hn]
    exact wf_take_none hwf hsrc (by omega)
  have hdp_v : validPath ((absPath cwd srcRel).dropLast ++ [destName]) = true := by
    rw [validPath, List.all_append, Bool.and_eq_true]
    exact ⟨validPath_dropLast hv, rfl⟩
  have htake_ne : ∀ n : Nat, n < (absPath cwd srcRel).length →
      (absPath cwd srcRel).take n ≠ (absPath cwd srcRel).dropLast ++ [destName] := by
    intro n hn
    refine ne_of_length_ne ?_
    rw [List.length_take, hdp_len]
    omega
  have h1 : resolveAbs fs fuel (absPath cwd srcRel) = absPath cwd srcRel := by
    refine resolve_clean fs fuel _ hv (fun n _ hn => wf_take_none hwf hsrc hn) ?_
    rw [hsrc]
    rfl
  have h3 : resolveAbs fs fuel ((absPath cwd srcRel).dropLast ++ [destName]) =
      (absPath cwd srcRel).dropLast ++ [destName] :=
    resolve_clean fs fuel _ hdp_v hdp_pre hdst
  have h7 : ∀ m : Nat, resolveAbs
      (insertNode fs ((absPath cwd srcRel).dropLast ++ [destName])
        (Node.file ⟨d.content, m⟩)) fuel (absPath cwd srcRel) =
      absPath cwd srcRel := by
    intro m
    refine resolve_clean _ fuel _ hv ?_ ?_
    · intro n _ hn
      rw [lookup_insert_ne _ _ _ _ (htake_ne n hn)]
      exact wf_take_none hwf hsrc hn
    · rw [lookup_insert_ne _ _ _ _ hne_sdp, hsrc]
      rfl
  have h8 : ∀ m : Nat, resolveAbs
      (insertNode fs ((absPath cwd srcRel).dropLast ++ [destName])
        (Node.file ⟨d.content, m⟩)) fuel
      ((absPath cwd srcRel).dropLast ++ [destName]) =
      (absPath cwd srcRel).dropLast ++ [destName] := by
    intro m
    refine resolve_clean _ fuel _ hdp_v ?_ ?_
    · intro n h0 hn
      have hne2 : ((absPath cwd srcRel).dropLast ++ [destName]).take n ≠
          (absPath cwd srcRel).dropLast ++ [destName] := by
        rw [take_dropLast_concat hn]
        exact htake_ne n (by omega)
      rw [lookup_insert_ne _ _ _ _ hne2]
      exact hdp_pre n h0 hn
    · rw [lookup_insert_self]
      rfl
  have hcopy := shutil_copy_spec fs fuel (absPath cwd srcRel)
    ((absPath cwd srcRel).dropLast ++ [destName]) (absPath cwd srcRel) d
    h1 hsrc h3 hdir hdst hne_sdp h7 h8
  simp only [runScript, copyfile, realpathFS, h1]
  exact hcopy

/-! Preservation of well-formedness by a clean insertion, used for the
idempotence claim. -/

theorem isDir_insert_false {fs : FS} {p q : Path} {nd : Node}
    (hd : isDirFS fs q = false) (hq : properIn q p = false) :
    isDirFS (insertNode fs p nd) q = false := by
  cases h : isDirFS (insertNode fs p nd) q with
  | false => rfl
  | true =>
    exfalso
    rw [isDirFS, List.any_eq_true] at h
    obtain ⟨kn, hkn, hpi⟩ := h
    rcases mem_insertNode hkn with heq | hmem
    · subst heq
      rw [hq] at hpi
      exact Bool.noConfusion hpi
    · rw [isDirFS] at hd
      have hone : fs.any (fun kn => properIn q kn.1) = true :=
        List.any_eq_true.mpr ⟨kn, hmem, hpi⟩
      rw [hd] at hone
      exact Bool.noConfusion hone

theorem wf_insert {fs : FS} {p : Path} {fd : FileData}
    (hwf : wfFS fs = true) (hne : p ≠ []) (hv : validPath p = true)
    (hdir : isDirFS fs p = false)
    (hpre : ∀ n : Nat, 0 < n → n < p.length → lookupNode fs (p.take n) = none) :
    wfFS (insertNode fs p (Node.file fd)) = true := by
  rw [wfFS, Bool.and_eq_true, List.all_eq_true, List.all_eq_true] at hwf ⊢
  constructor
  · intro kn hkn
    rcases mem_insertNode hkn with heq | hmem
    · subst heq
      simp [List.isEmpty_iff, hne, hv]
    · exact hwf.1 kn hmem
  · intro a ha
    rw [List.all_eq_true]
    intro b hb
    suffices hpf : properIn a.1 b.1 = false by rw [hpf]; rfl
    rcases mem_insertNode ha with ha' | ha' <;> rcases mem_insertNode hb with hb' | hb'
    · subst ha'; subst hb'
      exact properIn_irrefl p
    · subst ha'
      cases hcase : properIn p b.1 with
      | false => rfl
      | true =>
        exfalso
        have hone : fs.any (fun kn => properIn p kn.1) = true :=
          List.any_eq_true.mpr ⟨b, hb', hcase⟩
        rw [isDirFS] at hdir
        rw [hdir] at hone
        exact Bool.noConfusion hone
    · subst hb'
      cases hcase : properIn a.1 p with
      | false => rfl
      | true =>
        exfalso
        obtain ⟨hlt, htake⟩ := properIn_spec hcase
        have ha1 : a.1 ≠ [] := by
          have := hwf.1 a ha'
          rw [Bool.and_eq_true] at this
          simpa [List.isEmpty_iff] using this.1
        have h0 : 0 < a.1.length := List.length_pos.mpr ha1
        have hnone := hpre a.1.length h0 hlt
        rw [← htake] at hnone
        obtain ⟨m, hm⟩ := lookup_some_of_mem (p := a.1) (n := a.2) (by simpa using ha')
        rw [hm] at hnone
        exact Option.noConfusion hnone
    · have hall := hwf.2 a ha'
      rw [List.all_eq_true] at hall
      simpa using hall b hb'

/-! The claims. -/

/-- C1: in every well-formed filesystem state with a regular file at the
hard-coded relative source path (and a plain, non-directory, non-symlink
destination location), running the program as a direct invocation creates
a file named `libchromebase.a` in the directory of the (symlink-resolved)
source file, with byte-for-byte the source's content. -/
theorem c1_happy_path (fs : FS) (cwd : Path) (fuel : Nat) (d : FileData)
    (hwf : wfFS fs = true)
    (hsrc : lookupNode fs (absPath cwd srcRel) = some (Node.file d))
    (hdst : isSymNode (lookupNode fs
      ((absPath cwd srcRel).dropLast ++ [destName])) = false)
    (hdir : isDirFS fs ((absPath cwd srcRel).dropLast ++ [destName]) = false) :
    ∃ fs', runScript InvocationMode.direct fs cwd fuel = Except.ok fs' ∧
      lookupNode fs' ((absPath cwd srcRel).dropLast ++ [destName]) =
        some (Node.file ⟨d.content, d.mode⟩) :=
  ⟨_, script_copy_eq fs cwd fuel d hwf hsrc hdst hdir, lookup_insert_self _ _ _⟩

/-- Witness for C1 on a concrete filesystem. -/
def fileW : FileData := ⟨[1, 2, 3], 493⟩

def srcKeyW : Path :=
  ["home", "obj", "third_party", "mini_chromium", "mini_chromium", "base", "libbase.a"]

def fsHappy : FS := [(srcKeyW, Node.file fileW)]

theorem c1_happy_path_w :
    ∃ fs', runScript InvocationMode.direct fsHappy ["home"] 4 = Except.ok fs' ∧
      lookupNode fs' ((absPath ["home"] srcRel).dropLast ++ [destName]) =
        some (Node.file ⟨fileW.content, fileW.mode⟩) :=
  c1_happy_path fsHappy ["home"] 4 fileW rfl rfl rfl rfl

/-- C2: when nothing exists at the source path, the run terminates with a
file-not-found error, and no destination is created: the run returns the
error without any filesystem change. -/
theorem c2_missing_source (fs : FS) (cwd : Path) (fuel : Nat)
    (hn : lookupNode fs (realpathFS fs cwd fuel srcRel) = none)
    (hd : isDirFS fs (realpathFS fs cwd fuel srcRel) = false) :
    runScript InvocationMode.direct fs cwd fuel = Except.error FsError.fileNotFound := by
  simp only [runScript, copyfile]
  exact shutil_copy_notFound fs fuel _ _ hn hd

theorem c2_missing_source_w :
    runScript InvocationMode.direct ([] : FS) ["home"] 3 =
      Except.error FsError.fileNotFound :=
  c2_missing_source [] ["home"] 3 rfl rfl

/-- C3: the copy step is idempotent: from any state in which one run
succeeds, a second run succeeds and leaves exactly the state the first
run produced (it overwrites the destination with identical bytes). -/
theorem c3_idempotent (fs : FS) (cwd : Path) (fuel : Nat) (d : FileData)
    (hwf : wfFS fs = true)
    (hsrc : lookupNode fs (absPath cwd srcRel) = some (Node.file d))
    (hdst : isSymNode (lookupNode fs
      ((absPath cwd srcRel).dropLast ++ [destName])) = false)
    (hdir : isDirFS fs ((absPath cwd srcRel).dropLast ++ [destName]) = false) :
    ∃ fs₁, runScript InvocationMode.direct fs cwd fuel = Except.ok fs₁ ∧
      runScript InvocationMode.direct fs₁ cwd fuel = Except.ok fs₁ := by
  obtain ⟨hsne, hv⟩ := wf_entry hwf (lookup_mem hsrc)
  have hslen : 0 < (absPath cwd srcRel).length := List.length_pos.mpr hsne
  have hdp_len : ((absPath cwd srcRel).dropLast ++ [destName]).length =
      (absPath cwd srcRel).length := by
    simp only [List.length_append, List.length_dropLast, List.length_cons, List.length_nil]
    omega
  have hne_sdp : absPath cwd srcRel ≠ (absPath cwd srcRel).dropLast ++ [destName] := by
    intro h
    have h1 := getLastD_absPath_srcRel cwd
    rw [h, getLastD_append_single] at h1
    exact absurd h1 (by rw [destName]; intro hh; simp at hh)
  have hdp_pre : ∀ n : Nat, 0 < n →
      n < ((absPath cwd srcRel).dropLast ++ [destName]).length →
      lookupNode fs (((absPath cwd srcRel).dropLast ++ [destName]).take n) = none := by
    intro n _ hn
    rw [take_dropLast_concat hn]
    exact wf_take_none hwf hsrc (by omega)
  have hdp_v : validPath ((absPath cwd srcRel).dropLast ++ [destName]) = true := by
    rw [validPath, List.all_append, Bool.and_eq_true]
    exact ⟨validPath_dropLast hv, rfl⟩
  have hdp_ne : (absPath cwd srcRel).dropLast ++ [destName] ≠ ([] : Path) := by
    simp
  have hrun1 := script_copy_eq fs cwd fuel d hwf hsrc hdst hdir
  refine ⟨_, hrun1, ?_⟩
  have hwf₁ : wfFS (insertNode fs ((absPath cwd srcRel).dropLast ++ [destName])
      (Node.file ⟨d.content, d.mode⟩)) = true :=
    wf_insert hwf hdp_ne hdp_v hdir hdp_pre
  have hsrc₁ : lookupNode (insertNode fs ((absPath cwd srcRel).dropLast ++ [destName])
      (Node.file ⟨d.content, d.mode⟩)) (absPath cwd srcRel) = some (Node.file d) := by
    rw [lookup_insert_ne _ _ _ _ hne_sdp]
    exact hsrc
  have hdst₁ : isSymNode (lookupNode
      (insertNode fs ((absPath cwd srcRel).dropLast ++ [destName])
        (Node.file ⟨d.content, d.mode⟩))
      ((absPath cwd srcRel).dropLast ++ [destName])) = false := by
    rw [lookup_insert_self]
    rfl
  have hdir₁ : isDirFS (insertNode fs ((absPath cwd srcRel).dropLast ++ [destName])
      (Node.file ⟨d.content, d.mode⟩))
      ((absPath cwd srcRel).dropLast ++ [destName]) = false :=
    isDir_insert_false hdir (properIn_irrefl _)
  have hrun2 := script_copy_eq _ cwd fuel d hwf₁ hsrc₁ hdst₁ hdir₁
  rw [hrun2, insert_insert]

theorem c3_idempotent_w :
    ∃ fs₁, runScript InvocationMode.direct fsHappy ["home"] 4 = Except.ok fs₁ ∧
      runScript InvocationMode.direct fs₁ ["home"] 4 = Except.ok fs₁ :=
  c3_idempotent fsHappy ["home"] 4 fileW rfl rfl rfl rfl

/-- C4: when a destination file `libchromebase.a` already exists with
different content, a successful run fully replaces it: afterwards its
content is exactly the source's content (no merge, no append). -/
theorem c4_overwrite (fs : FS) (cwd : Path) (fuel : Nat) (d dOld : FileData)
    (hwf : wfFS fs = true)
    (hsrc : lookupNode fs (absPath cwd srcRel) = some (Node.file d))
    (hdstf : lookupNode fs ((absPath cwd srcRel).dropLast ++ [destName]) =
      some (Node.file dOld))
    (hdiff : dOld.content ≠ d.content) :
    ∃ fs', runScript InvocationMode.direct fs cwd fuel = Except.ok fs' ∧
      lookupNode fs' ((absPath cwd srcRel).dropLast ++ [destName]) =
        some (Node.file ⟨d.content, d.mode⟩) := by
  have hdst : isSymNode (lookupNode fs
      ((absPath cwd srcRel).dropLast ++ [destName])) = false := by
    rw [hdstf]
    rfl
  have hdir : isDirFS fs ((absPath cwd srcRel).dropLast ++ [destName]) = false :=
    wf_isDir_false hwf hdstf
  exact ⟨_, script_copy_eq fs cwd fuel d hwf hsrc hdst hdir, lookup_insert_self _ _ _⟩

def fsOverwrite : FS :=
  [(srcKeyW, Node.file fileW),
   (["home", "obj", "third_party", "mini_chromium", "mini_chromium", "base",
     "libchromebase.a"], Node.file ⟨[9, 9], 420⟩)]

theorem c4_overwrite_w :
    ∃ fs', runScript InvocationMode.direct fsOverwrite ["home"] 4 = Except.ok fs' ∧
      lookupNode fs' ((absPath ["home"] srcRel).dropLast ++ [destName]) =
        some (Node.file ⟨fileW.content, fileW.mode⟩) :=
  c4_overwrite fsOverwrite ["home"] 4 fileW ⟨[9, 9], 420⟩ rfl rfl rfl (by decide)

/-- C6: importing the module performs no action: under any filesystem
state, loading the script other than as the direct entry point returns
the state unchanged. -/
theorem c6_import_guard (fs : FS) (cwd : Path) (fuel : Nat) :
    runScript InvocationMode.imported fs cwd fuel = Except.ok fs := rfl

/-- C7: a successful run copies the source's permission bits to the
destination in addition to its contents: the destination file ends with
the same mode as the source file. -/
theorem c7_copies_mode (fs : FS) (cwd : Path) (fuel : Nat) (d : FileData)
    (hwf : wfFS fs = true)
    (hsrc : lookupNode fs (absPath cwd srcRel) = some (Node.file d))
    (hdst : isSymNode (lookupNode fs
      ((absPath cwd srcRel).dropLast ++ [destName])) = false)
    (hdir : isDirFS fs ((absPath cwd srcRel).dropLast ++ [destName]) = false) :
    ∃ fs' e, runScript InvocationMode.direct fs cwd fuel = Except.ok fs' ∧
      lookupNode fs' ((absPath cwd srcRel).dropLast ++ [destName]) =
        some (Node.file e) ∧ e.mode = d.mode ∧ e.content = d.content :=
  ⟨_, ⟨d.content, d.mode⟩, script_copy_eq fs cwd fuel d hwf hsrc hdst hdir,
    lookup_insert_self _ _ _, rfl, rfl⟩

theorem c7_copies_mode_w :
    ∃ fs' e, runScript InvocationMode.direct fsHappy ["home"] 4 = Except.ok fs' ∧
      lookupNode fs' ((absPath ["home"] srcRel).dropLast ++ [destName]) =
        some (Node.file e) ∧ e.mode = fileW.mode ∧ e.content = fileW.content :=
  c7_copies_mode fsHappy ["home"] 4 fileW rfl rfl rfl rfl

/-- C9: a successful run never modifies the source file, and changes no
path other than the single destination path. -/
theorem c9_frame (fs : FS) (cwd : Path) (fuel : Nat) (d : FileData)
    (hwf : wfFS fs = true)
    (hsrc : lookupNode fs (absPath cwd srcRel) = some (Node.file d))
    (hdst : isSymNode (lookupNode fs
      ((absPath cwd srcRel).dropLast ++ [destName])) = false)
    (hdir : isDirFS fs ((absPath cwd srcRel).dropLast ++ [destName]) = false) :
    ∃ fs', runScript InvocationMode.direct fs cwd fuel = Except.ok fs' ∧
      lookupNode fs' (absPath cwd srcRel) = some (Node.file d) ∧
      ∀ q : Path, q ≠ (absPath cwd srcRel).dropLast ++ [destName] →
        lookupNode fs' q = lookupNode fs q := by
  refine ⟨_, script_copy_eq fs cwd fuel d hwf hsrc hdst hdir, ?_, ?_⟩
  · rw [lookup_insert_ne]
    · exact hsrc
    · intro h
      have h1 := getLastD_absPath_srcRel cwd
      rw [h, getLastD_append_single] at h1
      exact absurd h1 (by rw [destName]; intro hh; simp at hh)
  · intro q hq
    exact lookup_insert_ne _ _ _ _ hq

theorem c9_frame_w :
    ∃ fs', runScript InvocationMode.direct fsHappy ["home"] 4 = Except.ok fs' ∧
      lookupNode fs' (absPath ["home"] srcRel) = some (Node.file fileW) ∧
      ∀ q : Path, q ≠ (absPath ["home"] srcRel).dropLast ++ [destName] →
        lookupNode fs' q = lookupNode fsHappy q :=
  c9_frame fsHappy ["home"] 4 fileW rfl rfl rfl rfl

/-! The symlink scenario: the hard-coded source path is a symbolic link
to a regular file elsewhere. -/

theorem script_copy_symlink_eq (fs : FS) (cwd : Path) (fuel : Nat) (t : Path) (d : FileData)
    (hwf : wfFS fs = true)
    (hsym : lookupNode fs (absPath cwd srcRel) = some (Node.symlink t))
    (ht : lookupNode fs t = some (Node.file d))
    (hlast : t.getLastD "" ≠ destName)
    (hdst : isSymNode (lookupNode fs (t.dropLast ++ [destName])) = false)
    (hdir : isDirFS fs (t.dropLast ++ [destName]) = false)
    (hnp : properIn (t.dropLast ++ [destName]) (absPath cwd srcRel) = false) :
    runScript InvocationMode.direct fs cwd (fuel + 1) =
      Except.ok (insertNode fs (t.dropLast ++ [destName])
        (Node.file ⟨d.content, d.mode⟩)) := by
  obtain ⟨hsne, hsv⟩ := wf_entry hwf (lookup_mem hsym)
  obtain ⟨htne, htv⟩ := wf_entry hwf (lookup_mem ht)
  have htlen : 0 < t.length := List.length_pos.mpr htne
  have hdp_len : (t.dropLast ++ [destName]).length = t.length := by
    simp only [List.length_append, List.length_dropLast, List.length_cons, List.length_nil]
    omega
  have ht_ne_dp : t ≠ t.dropLast ++ [destName] := by
    intro h
    apply hlast
    rw [h, getLastD_append_single]
  have hs_ne_dp : absPath cwd srcRel ≠ t.dropLast ++ [destName] := by
    intro h
    rw [← h, hsym] at hdst
    exact Bool.noConfusion hdst
  have hs_pre : ∀ n : Nat, 0 < n → n < (absPath cwd srcRel).length →
      lookupNode fs ((absPath cwd srcRel).take n) = none :=
    fun n _ hn => wf_take_none hwf hsym hn
  have ht_pre : ∀ n : Nat, 0 < n → n < t.length →
      lookupNode fs (t.take n) = none :=
    fun n _ hn => wf_take_none hwf ht hn
  have hdp_pre : ∀ n : Nat, 0 < n → n < (t.dropLast ++ [destName]).length →
      lookupNode fs ((t.dropLast ++ [destName]).take n) = none := by
    intro n _ hn
    rw [take_dropLast_concat hn]
    exact wf_take_none hwf ht (by omega)
  have hdp_v : validPath (t.dropLast ++ [destName]) = true := by
    rw [validPath, List.all_append, Bool.and_eq_true]
    exact ⟨validPath_dropLast htv, rfl⟩
  have hstake_ne : ∀ n : Nat, n < (absPath cwd srcRel).length →
      (absPath cwd srcRel).take n ≠ t.dropLast ++ [destName] := by
    intro n hn heq
    have hp := properIn_take (p := absPath cwd srcRel) hn
    rw [heq] at hp
    rw [hnp] at hp
    exact Bool.noConfusion hp
  have httake_ne : ∀ n : Nat, n < t.length →
      t.take n ≠ t.dropLast ++ [destName] := by
    intro n hn
    refine ne_of_length_ne ?_
    rw [List.length_take, hdp_len]
    omega
  have hres_s : resolveAbs fs (fuel + 1) (absPath cwd srcRel) = t := by
    rw [resolveAbs, resolve_sym fs fuel _ t hsv hsne hs_pre hsym]
    exact resolve_clean fs fuel t htv ht_pre (by rw [ht]; rfl)
  have hres_dp : resolveAbs fs (fuel + 1) (t.dropLast ++ [destName]) =
      t.dropLast ++ [destName] :=
    resolve_clean fs (fuel + 1) _ hdp_v hdp_pre hdst
  have h7 : ∀ m : Nat, resolveAbs
      (insertNode fs (t.dropLast ++ [destName]) (Node.file ⟨d.content, m⟩))
      (fuel + 1) (absPath cwd srcRel) = t := by
    intro m
    have hsym' : lookupNode
        (insertNode fs (t.dropLast ++ [destName]) (Node.file ⟨d.content, m⟩))
        (absPath cwd srcRel) = some (Node.symlink t) := by
      rw [lookup_insert_ne _ _ _ _ hs_ne_dp]
      exact hsym
    have hs_pre' : ∀ n : Nat, 0 < n → n < (absPath cwd srcRel).length →
        lookupNode (insertNode fs (t.dropLast ++ [destName]) (Node.file ⟨d.content, m⟩))
          ((absPath cwd srcRel).take n) = none := by
      intro n h0 hn
      rw [lookup_insert_ne _ _ _ _ (hstake_ne n hn)]
      exact hs_pre n h0 hn
    rw [resolveAbs, resolve_sym _ fuel _ t hsv hsne hs_pre' hsym']
    refine resolve_clean _ fuel t htv ?_ ?_
    · intro n h0 hn
      rw [lookup_insert_ne _ _ _ _ (httake_ne n hn)]
      exact ht_pre n h0 hn
    · rw [lookup_insert_ne _ _ _ _ ht_ne_dp, ht]
      rfl
  have h8 : ∀ m : Nat, resolveAbs
      (insertNode fs (t.dropLast ++ [destName]) (Node.file ⟨d.content, m⟩))
      (fuel + 1) (t.dropLast ++ [destName]) = t.dropLast ++ [destName] := by
    intro m
    refine resolve_clean _ (fuel + 1) _ hdp_v ?_ ?_
    · intro n h0 hn
      have hne2 : (t.dropLast ++ [destName]).take n ≠ t.dropLast ++ [destName] := by
        rw [take_dropLast_concat hn]
        exact httake_ne n (by omega)
      rw [lookup_insert_ne _ _ _ _ hne2]
      exact hdp_pre n h0 hn
    · rw [lookup_insert_self]
      rfl
  have hcopy := shutil_copy_spec fs (fuel + 1) (absPath cwd srcRel)
    (t.dropLast ++ [destName]) t d hres_s ht hres_dp hdir hdst ht_ne_dp h7 h8
  simp only [runScript, copyfile, realpathFS, hres_s]
  exact hcopy

/-- C5: when the source path is a symbolic link to a real file elsewhere,
a successful run places `libchromebase.a` in the directory of the
resolved real file, not in the directory containing the symlink (whose
own would-be destination path is left untouched when distinct). -/
theorem c5_symlink_resolution (fs : FS) (cwd : Path) (fuel : Nat) (t : Path) (d : FileData)
    (hwf : wfFS fs = true)
    (hsym : lookupNode fs (absPath cwd srcRel) = some (Node.symlink t))
    (ht : lookupNode fs t = some (Node.file d))
    (hlast : t.getLastD "" ≠ destName)
    (hdst : isSymNode (lookupNode fs (t.dropLast ++ [destName])) = false)
    (hdir : isDirFS fs (t.dropLast ++ [destName]) = false)
    (hnp : properIn (t.dropLast ++ [destName]) (absPath cwd srcRel) = false) :
    ∃ fs', runScript InvocationMode.direct fs cwd (fuel + 1) = Except.ok fs' ∧
      lookupNode fs' (t.dropLast ++ [destName]) =
        some (Node.file ⟨d.content, d.mode⟩) ∧
      ((absPath cwd srcRel).dropLast ++ [destName] ≠ t.dropLast ++ [destName] →
        lookupNode fs' ((absPath cwd srcRel).dropLast ++ [destName]) =
          lookupNode fs ((absPath cwd srcRel).dropLast ++ [destName])) :=
  ⟨_, script_copy_symlink_eq fs cwd fuel t d hwf hsym ht hlast hdst hdir hnp,
    lookup_insert_self _ _ _, fun hne => lookup_insert_ne _ _ _ _ hne⟩

def linkTargetW : Path := ["data", "real.a"]

def fsLinked : FS :=
  [(srcKeyW, Node.symlink linkTargetW), (linkTargetW, Node.file fileW)]

theorem c5_symlink_resolution_w :
    ∃ fs', runScript InvocationMode.direct fsLinked ["home"] (3 + 1) = Except.ok fs' ∧
      lookupNode fs' (linkTargetW.dropLast ++ [destName]) =
        some (Node.file ⟨fileW.content, fileW.mode⟩) ∧
      ((absPath ["home"] srcRel).dropLast ++ [destName] ≠
          linkTargetW.dropLast ++ [destName] →
        lookupNode fs' ((absPath ["home"] srcRel).dropLast ++ [destName]) =
          lookupNode fsLinked ((absPath ["home"] srcRel).dropLast ++ [destName])) :=
  c5_symlink_resolution fsLinked ["home"] 3 linkTargetW fileW rfl rfl rfl
    (by decide) rfl rfl rfl

/-- C8: when the computed destination refers to the same underlying file
as the source — the source path being a symbolic link whose resolved
target is itself named `libchromebase.a` — the step fails with a
same-file error rather than copying, leaving the state unchanged. -/
theorem c8_same_file (fs : FS) (cwd : Path) (fuel : Nat) (t : Path) (d : FileData)
    (hwf : wfFS fs = true)
    (hsym : lookupNode fs (absPath cwd srcRel) = some (Node.symlink t))
    (ht : lookupNode fs t = some (Node.file d))
    (hlast : t.getLastD "" = destName) :
    runScript InvocationMode.direct fs cwd (fuel + 1) =
      Except.error FsError.sameFileError := by
  obtain ⟨hsne, hsv⟩ := wf_entry hwf (lookup_mem hsym)
  obtain ⟨htne, htv⟩ := wf_entry hwf (lookup_mem ht)
  have hs_pre : ∀ n : Nat, 0 < n → n < (absPath cwd srcRel).length →
      lookupNode fs ((absPath cwd srcRel).take n) = none :=
    fun n _ hn => wf_take_none hwf hsym hn
  have ht_pre : ∀ n : Nat, 0 < n → n < t.length →
      lookupNode fs (t.take n) = none :=
    fun n _ hn => wf_take_none hwf ht hn
  have hres_s : resolveAbs fs (fuel + 1) (absPath cwd srcRel) = t := by
    rw [resolveAbs, resolve_sym fs fuel _ t hsv hsne hs_pre hsym]
    exact resolve_clean fs fuel t htv ht_pre (by rw [ht]; rfl)
  have hres_t : resolveAbs fs (fuel + 1) t = t :=
    resolve_clean fs (fuel + 1) t htv ht_pre (by rw [ht]; rfl)
  have hdp_eq : t.dropLast ++ [destName] = t := by
    rw [← hlast]
    exact dropLast_getLastD t htne ""
  have hdirt : isDirFS fs t = false := wf_isDir_false hwf ht
  have hse1 : statExistsFS fs (fuel + 1) (absPath cwd srcRel) = true := by
    simp only [statExistsFS, hres_s, ht]
  have hse2 : statExistsFS fs (fuel + 1) t = true := by
    simp only [statExistsFS, hres_t, ht]
  have hsame : sameFileFS fs (fuel + 1) (absPath cwd srcRel) t = true := by
    simp [sameFileFS, hse1, hse2, hres_s, hres_t]
  have hcf : Shutil.copyfile fs (fuel + 1) (absPath cwd srcRel) t =
      Except.error FsError.sameFileError := by
    simp [Shutil.copyfile, hsame]
  simp only [runScript, copyfile, realpathFS, hres_s, hdp_eq]
  simp [Shutil.copy, hres_t, hdirt, hcf]

def sameTargetW : Path := ["data", "libchromebase.a"]

def fsSame : FS :=
  [(srcKeyW, Node.symlink sameTargetW), (sameTargetW, Node.file fileW)]

theorem c8_same_file_w :
    runScript InvocationMode.direct fsSame ["home"] (3 + 1) =
      Except.error FsError.sameFileError :=
  c8_same_file fsSame ["home"] 3 sameTargetW fileW rfl rfl rfl rfl

/-! The destination-path invariant of `copyfile` for an arbitrary
argument. -/

/-- No node sits at any proper nonempty initial segment of `q`. -/
def cleanAbove (fs : FS) (q : Path) : Bool :=
  (List.range q.length).all (fun n => n == 0 || (lookupNode fs (q.take n)).isNone)

theorem cleanAbove_spec {fs : FS} {q : Path} (h : cleanAbove fs q = true) :
    ∀ n : Nat, 0 < n → n < q.length → lookupNode fs (q.take n) = none := by
  intro n h0 hn
  rw [cleanAbove, List.all_eq_true] at h
  have hx := h n (List.mem_range.mpr hn)
  rw [Bool.or_eq_true] at hx
  rcases hx with hx | hx
  · exact absurd (by simpa using hx : n = 0) (by omega)
  · exact Option.isNone_iff_eq_none.mp hx

/-- C10 (amended): for every argument `filepath`, when the computed
destination (the directory of the resolved source joined with the literal
name `libchromebase.a`) is a plain location — not an existing directory,
not a symbolic link, with nothing mounted above it — its basename is the
literal `libchromebase.a`, its directory is that of the resolved source,
and a successful run of `copyfile` changes no path other than that
destination.  (When a directory already exists at the computed
destination, `shutil.copy` instead copies into it under the source's
basename, so the unconditional claim fails.) -/
theorem c10_dest_invariant (fs : FS) (cwd : Path) (fuel : Nat) (fp : String)
    (hv : validPath ((realpathFS fs cwd fuel fp).dropLast ++ [destName]) = true)
    (hcl : cleanAbove fs ((realpathFS fs cwd fuel fp).dropLast ++ [destName]) = true)
    (hsym : isSymNode (lookupNode fs
      ((realpathFS fs cwd fuel fp).dropLast ++ [destName])) = false)
    (hdir : isDirFS fs ((realpathFS fs cwd fuel fp).dropLast ++ [destName]) = false) :
    ((realpathFS fs cwd fuel fp).dropLast ++ [destName]).getLastD "" = destName ∧
    ((realpathFS fs cwd fuel fp).dropLast ++ [destName]).dropLast =
      (realpathFS fs cwd fuel fp).dropLast ∧
    ∀ fs' : FS, copyfile fs cwd fuel fp = Except.ok fs' →
      ∀ q : Path, q ≠ (realpathFS fs cwd fuel fp).dropLast ++ [destName] →
        lookupNode fs' q = lookupNode fs q := by
  have hpre := cleanAbove_spec hcl
  have hres : resolveAbs fs fuel ((realpathFS fs cwd fuel fp).dropLast ++ [destName]) =
      (realpathFS fs cwd fuel fp).dropLast ++ [destName] :=
    resolve_clean fs fuel _ hv hpre hsym
  have hres' : ∀ fd : FileData, resolveAbs
      (insertNode fs ((realpathFS fs cwd fuel fp).dropLast ++ [destName]) (Node.file fd))
      fuel ((realpathFS fs cwd fuel fp).dropLast ++ [destName]) =
      (realpathFS fs cwd fuel fp).dropLast ++ [destName] := by
    intro fd
    refine resolve_clean _ fuel _ hv ?_ ?_
    · intro n h0 hn
      have hne2 : ((realpathFS fs cwd fuel fp).dropLast ++ [destName]).take n ≠
          (realpathFS fs cwd fuel fp).dropLast ++ [destName] :=
        ne_of_length_ne (by rw [List.length_take]; omega)
      rw [lookup_insert_ne _ _ _ _ hne2]
      exact hpre n h0 hn
    · rw [lookup_insert_self]
      rfl
  refine ⟨getLastD_append_single _ _ _, List.dropLast_concat, ?_⟩
  intro fs' hrun q hq
  simp only [copyfile] at hrun
  simp only [Shutil.copy, hres, hdir, Bool.false_eq_true, if_false] at hrun
  cases hsf : sameFileFS fs fuel (absPath cwd fp)
      ((realpathFS fs cwd fuel fp).dropLast ++ [destName]) with
  | true => simp [Shutil.copyfile, hsf] at hrun
  | false =>
    cases hor : openReadAbs fs fuel (absPath cwd fp) with
    | error e => simp [Shutil.copyfile, hsf, hor] at hrun
    | ok d =>
      cases hl : lookupNode fs
          ((realpathFS fs cwd fuel fp).dropLast ++ [destName]) with
      | some nd =>
        cases nd with
        | symlink t =>
          rw [hl] at hsym
          exact Bool.noConfusion hsym
        | file old =>
          have hcf : Shutil.copyfile fs fuel (absPath cwd fp)
              ((realpathFS fs cwd fuel fp).dropLast ++ [destName]) =
              Except.ok (insertNode fs
                ((realpathFS fs cwd fuel fp).dropLast ++ [destName])
                (Node.file ⟨d.content, old.mode⟩)) := by
            simp [Shutil.copyfile, hsf, hor, hres, hdir, hl]
          rw [hcf] at hrun
          cases hst : statFile (insertNode fs
              ((realpathFS fs cwd fuel fp).dropLast ++ [destName])
              (Node.file ⟨d.content, old.mode⟩)) fuel (absPath cwd fp) with
          | none => simp [Shutil.copymode, hst] at hrun
          | some d2 =>
            simp only [Shutil.copymode, hst, hres' ⟨d.content, old.mode⟩,
              lookup_insert_self, insert_insert] at hrun
            obtain rfl : insertNode fs
                ((realpathFS fs cwd fuel fp).dropLast ++ [destName])
                (Node.file ⟨d.content, d2.mode⟩) = fs' := by
              injection hrun
            exact lookup_insert_ne _ _ _ _ hq
      | none =>
        have hcf : Shutil.copyfile fs fuel (absPath cwd fp)
            ((realpathFS fs cwd fuel fp).dropLast ++ [destName]) =
            Except.ok (insertNode fs
              ((realpathFS fs cwd fuel fp).dropLast ++ [destName])
              (Node.file ⟨d.content, defaultMode⟩)) := by
          simp [Shutil.copyfile, hsf, hor, hres, hdir, hl]
        rw [hcf] at hrun
        cases hst : statFile (insertNode fs
            ((realpathFS fs cwd fuel fp).dropLast ++ [destName])
            (Node.file ⟨d.content, defaultMode⟩)) fuel (absPath cwd fp) with
        | none => simp [Shutil.copymode, hst] at hrun
        | some d2 =>
          simp only [Shutil.copymode, hst, hres' ⟨d.content, defaultMode⟩,
            lookup_insert_self, insert_insert] at hrun
          obtain rfl : insertNode fs
              ((realpathFS fs cwd fuel fp).dropLast ++ [destName])
              (Node.file ⟨d.content, d2.mode⟩) = fs' := by
            injection hrun
          exact lookup_insert_ne _ _ _ _ hq

def fsPlain : FS := [(["d", "f"], Node.file ⟨[5], 420⟩)]

theorem c10_dest_invariant_w :
    ((realpathFS fsPlain [] 2 "d/f").dropLast ++ [destName]).getLastD "" = destName ∧
    ((realpathFS fsPlain [] 2 "d/f").dropLast ++ [destName]).dropLast =
      (realpathFS fsPlain [] 2 "d/f").dropLast ∧
    ∀ fs' : FS, copyfile fsPlain [] 2 "d/f" = Except.ok fs' →
      ∀ q : Path, q ≠ (realpathFS fsPlain [] 2 "d/f").dropLast ++ [destName] →
        lookupNode fs' q = lookupNode fsPlain q :=
  c10_dest_invariant fsPlain [] 2 "d/f" rfl rfl rfl rfl

/-- C10 counterexample: when a directory named `libchromebase.a` already
exists next to the source, a successful run of `copyfile` writes to
`libchromebase.a/<source basename>` inside it — a path whose basename is
the source's name, not the literal `libchromebase.a`, and distinct from
the claimed destination, which receives no file. -/
def fsDir : FS :=
  [(["d", "f"], Node.file ⟨[1], 420⟩),
   (["d", "libchromebase.a", "x"], Node.file ⟨[2], 420⟩)]

def fsDirAfter : FS :=
  [(["d", "f"], Node.file ⟨[1], 420⟩),
   (["d", "libchromebase.a", "x"], Node.file ⟨[2], 420⟩),
   (["d", "libchromebase.a", "f"], Node.file ⟨[1], 420⟩)]

theorem c10_counterexample :
    copyfile fsDir [] 5 "d/f" = Except.ok fsDirAfter ∧
    (realpathFS fsDir [] 5 "d/f").dropLast ++ [destName] = ["d", "libchromebase.a"] ∧
    lookupNode fsDirAfter ["d", "libchromebase.a", "f"] = some (Node.file ⟨[1], 420⟩) ∧
    lookupNode fsDir ["d", "libchromebase.a", "f"] = none ∧
    (["d", "libchromebase.a", "f"] : Path) ≠ ["d", "libchromebase.a"] ∧
    lookupNode fsDirAfter ["d", "libchromebase.a"] = none :=
  ⟨rfl, rfl, rfl, rfl, by decide, rfl⟩

end Crashpad
